import Mathlib

/-!
# Verification of `cachetools/ttl.py` (TTLCache)

Shallow embedding of the `TTLCache` class and the `_Timer` helper from
`src/cachetools/ttl.py`. Keys and values are modelled as `Nat`, timestamps as
`Int`. The three internal structures are modelled as insertion-ordered
association lists, mirroring `collections.OrderedDict`:

* `data`        — the Bounded Store mapping of the `Cache` base class
                  (key → value; the base class itself is not in the sources,
                  its operations are modelled from the spec, §4.4);
* `expiry_info` — `self.__expiry_info`, key → absolute expiry timestamp,
                  in insertion order;
* `order`       — `self.__order`, the access-order index (all values are
                  `None` in the source, so it is a plain key list here);
                  front = least recently used, back = most recently used.

All values have size 1 (`getsizeof=None` in the source), so the Bounded
Store's current size is the length of `data`.

Every operation takes the snapshot time `now : Int` explicitly: in the source
each public operation opens a reentrant `_Timer` scope and all nested clock
reads return the single snapshot, which is exactly what explicit time passing
gives. The `_Timer` object itself is modelled separately (`TimerState`) for
the claims about its reentrancy.

A Python `KeyError` / `ValueError` is modelled by `Option` / dedicated result
types; where an exception escapes after the state was already mutated
(`__delitem__` on an expired key) the result carries the mutated state.
-/

namespace TTL

/-- Keys (hashables) are modelled as naturals. -/
abbrev Key := Nat

/-- Stored values are modelled as naturals. -/
abbrev Value := Nat

/-- Timestamps / durations, as integers. -/
abbrev Time := Int

/-! ## OrderedDict primitives (insertion-ordered association lists) -/

/-- Lookup `d[k]` in an ordered dict: first (and, without duplicates, only)
binding of `k`. Here `none` models a `KeyError`. -/
def odFind {β : Type} : List (Key × β) → Key → Option β
  | [], _ => none
  | (a, b) :: rest, k => if a = k then some b else odFind rest k

/-- Assignment `d[k] = v` on an ordered dict: update in place when the key is
present (keeping its position), else append at the end. -/
def odSet {β : Type} : List (Key × β) → Key → β → List (Key × β)
  | [], k, v => [(k, v)]
  | (a, b) :: rest, k, v => if a = k then (a, v) :: rest else (a, b) :: odSet rest k v

/-- Deletion `del d[k]` on an ordered dict (the caller checks presence
separately when the `KeyError` matters). -/
def odDel {β : Type} : List (Key × β) → Key → List (Key × β)
  | [], _ => []
  | (a, b) :: rest, k => if a = k then rest else (a, b) :: odDel rest k

/-- The key list of an ordered dict, in insertion order. -/
def odKeys {β : Type} (l : List (Key × β)) : List Key := l.map Prod.fst

/-- Assignment `self.__order[key] = None`: inserting `None` under `key` keeps
the position when present, else appends at the MRU end. -/
def odSetUnit (l : List Key) (k : Key) : List Key :=
  if k ∈ l then l else l ++ [k]

/-! ## Cache state -/

/-- The complete mutable state of a `TTLCache` instance. -/
structure CacheState where
  /-- The Bounded Store's mapping (`Cache.__data`), all sizes 1. -/
  data : List (Key × Value)
  /-- `self.__expiry_info`: key → absolute expiry timestamp. -/
  expiry_info : List (Key × Time)
  /-- `self.__order`: access order, LRU at the front, MRU at the back. -/
  order : List Key
  /-- `Cache.maxsize`. -/
  maxsize : Nat
  /-- `self.__ttl`. -/
  ttl : Time
  deriving Repr, DecidableEq

/-- Constructor `TTLCache(maxsize, ttl)`: a freshly constructed, empty cache. -/
def mkCache (maxsize : Nat) (ttl : Time) : CacheState :=
  ⟨[], [], [], maxsize, ttl⟩

/-- Keys currently in the Bounded Store. -/
def dataKeys (s : CacheState) : List Key := odKeys s.data

/-- Keys currently in the Expiry Index. -/
def expiryKeys (s : CacheState) : List Key := odKeys s.expiry_info

/-! ## Operations of `TTLCache`

The `Cache` base class (`from .cache import Cache`) is not among the source
files; its mapping operations are modelled from the spec, §4.4. -/

/-- Modelled from the spec: the Bounded Store's `get(key) -> value or
NotFound` (`Cache.__getitem__` falling through to `__missing__`, which raises
`KeyError`); `none` is the NotFound outcome. -/
def cache_getitem (s : CacheState) (k : Key) : Option Value :=
  odFind s.data k

/-- Modelled from the spec: the Bounded Store's `delete(key)`
(`Cache.__delitem__`); raises NotFound (`none`) when the key is absent. -/
def cache_delitem (s : CacheState) (k : Key) : Option CacheState :=
  match odFind s.data k with
  | none => none
  | some _ => some { s with data := odDel s.data k }

/-- Method `TTLCache.__contains__`: read the raw expiry timestamp (no reordering);
present iff recorded and `expiry_time >= now`. -/
def contains (s : CacheState) (k : Key) (now : Time) : Bool :=
  match odFind s.expiry_info k with
  | none => false
  | some expiry_time => expiry_time ≥ now

/-- Method `TTLCache.__getexpiry`: look up the expiry timestamp and move the
key to the MRU end of the access order (`self.__order.move_to_end(key)`).
Here `none` models the `KeyError` (from the expiry lookup, or from
`move_to_end` when the key is missing from the order index). -/
def getexpiry (s : CacheState) (k : Key) : Option (Time × CacheState) :=
  match odFind s.expiry_info k with
  | none => none
  | some expiry_time =>
    if k ∈ s.order then
      some (expiry_time, { s with order := s.order.erase k ++ [k] })
    else
      none

/-- Method `TTLCache.__getitem__`: `__getexpiry` (which touches the order index);
on `KeyError` treat as not expired; if expired take the `__missing__` path
(`KeyError`, modelled as `none`), else the Bounded Store lookup. The returned
state carries the (possible) reordering even when the lookup fails. -/
def getitem (s : CacheState) (k : Key) (now : Time) : Option Value × CacheState :=
  match getexpiry s k with
  | none => (cache_getitem s k, s)
  | some (expiry_time, s') =>
    if expiry_time < now then (none, s')
    else (cache_getitem s' k, s')

/-- Result of `TTLCache.__delitem__`: either a normal return or a `KeyError`,
in both cases with the state as the operation left it (the source removes the
entry physically and only then raises for an already-expired key). -/
inductive DelResult where
  | ok (s : CacheState)
  | keyError (s : CacheState)
  deriving Repr, DecidableEq

/-- The state a `DelResult` carries. -/
def DelResult.state : DelResult → CacheState
  | .ok s => s
  | .keyError s => s

/-- Method `TTLCache.__delitem__`: `Cache.__delitem__`, then `del self.__order[key]`,
then `self.__expiry_info.pop(key)`; finally raise `KeyError` when the removed
entry was already expired (`expiry_time < now`). -/
def delitem (s : CacheState) (k : Key) (now : Time) : DelResult :=
  match cache_delitem s k with
  | none => .keyError s
  | some s1 =>
    if k ∈ s1.order then
      match odFind s1.expiry_info k with
      | none => .keyError { s1 with order := s1.order.erase k }
      | some expiry_time =>
        if expiry_time < now then
          .keyError { s1 with order := s1.order.erase k,
                              expiry_info := odDel s1.expiry_info k }
        else
          .ok { s1 with order := s1.order.erase k,
                        expiry_info := odDel s1.expiry_info k }
    else .keyError s1

/-- The loop body of `TTLCache.expire`: walk the Expiry Index from the front,
deleting from the store, the Expiry Index and the order index while the front
entry has `expiry_time < time`; stop at the first entry with
`expiry_time >= time`. `none` models a `KeyError` escaping from one of the
deletions (impossible in consistent states). -/
def expireLoop (now : Time) :
    List (Key × Time) → List (Key × Value) → List Key →
    Option (List (Key × Time) × List (Key × Value) × List Key)
  | [], d, o => some ([], d, o)
  | (k, e) :: rest, d, o =>
    if e ≥ now then some ((k, e) :: rest, d, o)
    else if (odFind d k).isSome then
      if k ∈ o then expireLoop now rest (odDel d k) (o.erase k)
      else none
    else none

/-- Method `TTLCache.expire(time)`: remove all expired items, scanning the Expiry
Index from the front and stopping at the first live entry. -/
def expire (s : CacheState) (now : Time) : Option CacheState :=
  match expireLoop now s.expiry_info s.data s.order with
  | none => none
  | some (e, d, o) => some { s with data := d, expiry_info := e, order := o }

/-- Result of `TTLCache.popitem`: a popped `(key, value)` pair with the new
state, the empty-cache `KeyError`, or another escaping error (impossible in
consistent states). -/
inductive PopResult where
  | ok (kv : Key × Value) (s : CacheState)
  | empty
  | err
  deriving Repr, DecidableEq

/-- Method `TTLCache.popitem`: expire with the snapshot time; `next(iter(order))`
(LRU front), raising the empty-cache `KeyError` when exhausted; then
`self.pop(key)`, which is `self[key]` followed by `del self[key]` under the
same snapshot. -/
def popitem (s : CacheState) (now : Time) : PopResult :=
  match expire s now with
  | none => .err
  | some s1 =>
    match s1.order with
    | [] => .empty
    | k :: _ =>
      match getitem s1 k now with
      | (none, _) => .err
      | (some v, s2) =>
        match delitem s2 k now with
        | .ok s3 => .ok (k, v) s3
        | .keyError _ => .err

/-- Modelled from the spec: the Bounded Store's eviction loop inside
`set(key, value)` — "auto-evicting oldest-by-the-supplied-order-callback
entries until within budget"; the order callback is the dynamic dispatch to
`TTLCache.popitem`. All sizes are 1, so the budget check is on `data` length.
The fuel argument only bounds the recursion; it is chosen large enough. -/
def evictLoop (now : Time) : Nat → CacheState → Option CacheState
  | 0, _ => none
  | fuel + 1, s =>
    if s.data.length + 1 > s.maxsize then
      match popitem s now with
      | .ok _ s' => evictLoop now fuel s'
      | _ => none
    else some s

/-- Modelled from the spec: the Bounded Store's `set(key, value)`
(`Cache.__setitem__`): raise the oversize error when a single value's size
(here 1) exceeds `maxsize`; an overwrite of a present key needs no eviction
(same size); a new key first evicts via `popitem` until within budget. -/
def cache_setitem (s : CacheState) (k : Key) (v : Value) (now : Time) :
    Option CacheState :=
  if s.maxsize = 0 then none
  else if (odFind s.data k).isSome then
    some { s with data := odSet s.data k v }
  else
    match evictLoop now (s.data.length + 1) s with
    | none => none
    | some s1 => some { s1 with data := odSet s1.data k v }

/-- Method `TTLCache.__setitem__`: under one snapshot, `expire(time)`, then the
Bounded Store write, then `__getexpiry(key)`: on `KeyError` insert the key at
the MRU end of the order index (`self.__order[key] = None`), else delete the
key's old Expiry Index entry (`__getexpiry` itself already moved the key to
the MRU end); finally append `(key, time + ttl)` to the Expiry Index. -/
def setitem (s : CacheState) (k : Key) (v : Value) (now : Time) :
    Option CacheState :=
  match expire s now with
  | none => none
  | some s1 =>
    match cache_setitem s1 k v now with
    | none => none
    | some s2 =>
      match getexpiry s2 k with
      | none =>
        some { s2 with order := odSetUnit s2.order k,
                       expiry_info := odSet s2.expiry_info k (now + s2.ttl) }
      | some (_, s3) =>
        some { s3 with
               expiry_info := odSet (odDel s3.expiry_info k) k (now + s3.ttl) }

/-- Method `TTLCache.clear`: expire with the snapshot time, then `Cache.clear`
(modelled from the spec: "remove everything"). -/
def clear (s : CacheState) (now : Time) : Option CacheState :=
  match expire s now with
  | none => none
  | some s1 => some { s1 with data := [], expiry_info := [], order := [] }

/-- Run a sequence of `set` calls, each given as `(key, value, clock time)`;
`none` as soon as one of them errors. -/
def runSets : CacheState → List (Key × Value × Time) → Option CacheState
  | s, [] => some s
  | s, (k, v, tm) :: rest =>
    match setitem s k v tm with
    | none => none
    | some s' => runSets s' rest

/-! ## Consistency invariants -/

/-- Structural well-formedness: no duplicate keys anywhere, and the three key
sets (Bounded Store, Expiry Index, Access Order Index) coincide. -/
structure WF (s : CacheState) : Prop where
  ndData : (dataKeys s).Nodup
  ndExp : (expiryKeys s).Nodup
  ndOrd : s.order.Nodup
  expData : ∀ k, k ∈ expiryKeys s ↔ k ∈ dataKeys s
  ordData : ∀ k, k ∈ s.order ↔ k ∈ dataKeys s

/-- The Expiry Index's iteration order has non-decreasing expiry timestamps. -/
def sortedExp (s : CacheState) : Prop :=
  (s.expiry_info.map Prod.snd).Pairwise (· ≤ ·)

/-- All recorded expiry timestamps are at most `t + ttl`, where `t` is the
latest clock value any operation has seen. -/
def expBound (s : CacheState) (t : Time) : Prop :=
  ∀ e ∈ s.expiry_info.map Prod.snd, e ≤ t + s.ttl

/-- Full invariant of a cache whose operations have seen clock values up to
`t`: structural well-formedness, monotone expiry order, bounded expiries. -/
structure Inv (s : CacheState) (t : Time) : Prop where
  wf : WF s
  sorted : sortedExp s
  bound : expBound s t

/-- The key sets of the Expiry Index, the Access Order Index, and the Bounded
Store are pairwise identical (as sets). -/
def keysAligned (s : CacheState) : Prop :=
  (∀ k, k ∈ expiryKeys s ↔ k ∈ dataKeys s) ∧ (∀ k, k ∈ s.order ↔ k ∈ dataKeys s)

/-- States reachable from a fresh cache by completed public operations, with a
monotone non-decreasing clock; `Reachable s t` means the operations so far
have seen clock values up to `t`. The `expire`/`clear` steps allow an
arbitrary explicit `time` argument, as the source's public `expire(time)`
does. -/
inductive Reachable : CacheState → Time → Prop where
  | init (m : Nat) (d : Time) (t : Time) : Reachable (mkCache m d) t
  | wait {s t} (t' : Time) : Reachable s t → t ≤ t' → Reachable s t'
  | step_set {s t s'} (k : Key) (v : Value) : Reachable s t →
      setitem s k v t = some s' → Reachable s' t
  | step_get {s t} (k : Key) : Reachable s t → Reachable ((getitem s k t).2) t
  | step_del {s t} (k : Key) : Reachable s t → Reachable ((delitem s k t).state) t
  | step_expire {s t s'} (t' : Time) : Reachable s t →
      expire s t' = some s' → Reachable s' t
  | step_pop {s t s'} (kv : Key × Value) : Reachable s t →
      popitem s t = .ok kv s' → Reachable s' t
  | step_clear {s t s'} (t' : Time) : Reachable s t →
      clear s t' = some s' → Reachable s' t

/-! ## The `_Timer` wrapper

State machine for the reentrant clock snapshot. The underlying clock
(`self.__timer`) is modelled as a function from the number of queries made so
far to the returned timestamp; `samples` counts those queries, so "the clock
is never re-sampled" is "`samples` is unchanged". -/

/-- Mutable state of a `_Timer` instance: `self.__nesting`, the cached
snapshot `self.__time`, and the number of underlying clock queries. -/
structure TimerState where
  nesting : Nat
  time : Time
  samples : Nat
  deriving Repr, DecidableEq

/-- Method `_Timer.__call__`: query the underlying clock at depth 0, return
the cached snapshot otherwise. -/
def timerCall (clock : Nat → Time) (st : TimerState) : Time × TimerState :=
  if st.nesting = 0 then (clock st.samples, { st with samples := st.samples + 1 })
  else (st.time, st)

/-- Method `_Timer.__enter__`: at depth 0 sample the clock and cache it, else
reuse the cached snapshot; increment the depth; return the value. -/
def timerEnter (clock : Nat → Time) (st : TimerState) : Time × TimerState :=
  if st.nesting = 0 then
    (clock st.samples,
     { nesting := st.nesting + 1, time := clock st.samples, samples := st.samples + 1 })
  else (st.time, { st with nesting := st.nesting + 1 })

/-- Method `_Timer.__exit__`: decrement the depth. -/
def timerExit (st : TimerState) : TimerState :=
  { st with nesting := st.nesting - 1 }

/-- Events applied to a `_Timer`: a scope entry, a scope exit, or a plain
`now()` call. -/
inductive TEvent where
  | enter
  | exit
  | call
  deriving Repr, DecidableEq

/-- Run a sequence of `_Timer` events, collecting the timestamps returned by
the `enter` and `call` events. -/
def runTimer (clock : Nat → Time) : List TEvent → TimerState → List Time × TimerState
  | [], st => ([], st)
  | .enter :: rest, st =>
    let p := timerEnter clock st
    let q := runTimer clock rest p.2
    (p.1 :: q.1, q.2)
  | .call :: rest, st =>
    let p := timerCall clock st
    let q := runTimer clock rest p.2
    (p.1 :: q.1, q.2)
  | .exit :: rest, st => runTimer clock rest (timerExit st)

/-- Whether an event trace started at nesting depth `n` keeps the depth at 1
or more throughout, i.e. stays inside the outermost scope. -/
def nestOK : List TEvent → Nat → Bool
  | [], _ => true
  | .enter :: rest, n => nestOK rest (n + 1)
  | .call :: rest, n => nestOK rest n
  | .exit :: rest, n => decide (2 ≤ n) && nestOK rest (n - 1)

/-! ## Lemmas about the ordered-dict primitives -/

theorem odKeys_nil {β : Type} : odKeys ([] : List (Key × β)) = [] := rfl

theorem odKeys_cons {β : Type} (a : Key) (b : β) (rest : List (Key × β)) :
    odKeys ((a, b) :: rest) = a :: odKeys rest := rfl

theorem odKeys_append {β : Type} (l l' : List (Key × β)) :
    odKeys (l ++ l') = odKeys l ++ odKeys l' := by
  simp [odKeys]

theorem mem_odKeys_iff_isSome {β : Type} (l : List (Key × β)) (k : Key) :
    k ∈ odKeys l ↔ (odFind l k).isSome := by
  induction l with
  | nil => simp [odKeys, odFind]
  | cons p rest ih =>
    obtain ⟨a, b⟩ := p
    by_cases h : a = k
    · subst h; simp [odKeys_cons, odFind]
    · rw [odKeys_cons]
      simp [odFind, h, Ne.symm h, ih]

theorem odFind_eq_none_iff {β : Type} (l : List (Key × β)) (k : Key) :
    odFind l k = none ↔ k ∉ odKeys l := by
  rw [mem_odKeys_iff_isSome, Option.isSome_iff_ne_none]
  tauto

theorem mem_odKeys_of_find {β : Type} {l : List (Key × β)} {k : Key} {b : β}
    (h : odFind l k = some b) : k ∈ odKeys l := by
  rw [mem_odKeys_iff_isSome, h]; rfl

theorem odFind_mem_values {β : Type} {l : List (Key × β)} {k : Key} {b : β}
    (h : odFind l k = some b) : b ∈ l.map Prod.snd := by
  induction l with
  | nil => simp [odFind] at h
  | cons p rest ih =>
    obtain ⟨a, b'⟩ := p
    by_cases hak : a = k
    · subst hak; simp [odFind] at h; simp [h]
    · simp [odFind, hak] at h
      simp [ih h]

theorem odFind_odSet_self {β : Type} (l : List (Key × β)) (k : Key) (v : β) :
    odFind (odSet l k v) k = some v := by
  induction l with
  | nil => simp [odSet, odFind]
  | cons p rest ih =>
    obtain ⟨a, b⟩ := p
    by_cases h : a = k <;> simp [odSet, odFind, h, ih]

theorem odFind_odSet_ne {β : Type} (l : List (Key × β)) {k k' : Key} (v : β)
    (h : k' ≠ k) : odFind (odSet l k v) k' = odFind l k' := by
  induction l with
  | nil => simp [odSet, odFind, Ne.symm h]
  | cons p rest ih =>
    obtain ⟨a, b⟩ := p
    by_cases hak : a = k
    · subst hak; simp [odSet, odFind, Ne.symm h]
    · by_cases hak' : a = k' <;> simp [odSet, odFind, hak, hak', h, ih]

theorem odSet_of_not_mem {β : Type} {l : List (Key × β)} {k : Key} (v : β)
    (h : k ∉ odKeys l) : odSet l k v = l ++ [(k, v)] := by
  induction l with
  | nil => simp [odSet]
  | cons p rest ih =>
    obtain ⟨a, b⟩ := p
    simp only [odKeys, List.map_cons, List.mem_cons] at h
    push_neg at h
    simp [odSet, Ne.symm h.1, ih h.2]

theorem odKeys_odSet_of_mem {β : Type} (l : List (Key × β)) (k : Key) (v : β)
    (h : k ∈ odKeys l) : odKeys (odSet l k v) = odKeys l := by
  induction l with
  | nil => simp [odKeys] at h
  | cons p rest ih =>
    obtain ⟨a, b⟩ := p
    by_cases hak : a = k
    · subst hak; simp [odSet, odKeys_cons]
    · rw [odKeys_cons, List.mem_cons] at h
      rcases h with h | h
      · exact absurd h.symm hak
      · simp only [odSet, if_neg hak, odKeys_cons]
        rw [ih h]

theorem odKeys_odSet_of_not_mem {β : Type} {l : List (Key × β)} {k : Key} (v : β)
    (h : k ∉ odKeys l) : odKeys (odSet l k v) = odKeys l ++ [k] := by
  rw [odSet_of_not_mem v h]
  simp [odKeys]

theorem odKeys_odDel {β : Type} (l : List (Key × β)) (k : Key) :
    odKeys (odDel l k) = (odKeys l).erase k := by
  induction l with
  | nil => simp [odDel, odKeys]
  | cons p rest ih =>
    obtain ⟨a, b⟩ := p
    by_cases h : a = k
    · subst h; simp [odDel, odKeys_cons, List.erase_cons]
    · simp only [odDel, if_neg h, odKeys_cons, List.erase_cons, ih]
      rw [if_neg (by simpa using h)]

theorem odDel_sublist {β : Type} (l : List (Key × β)) (k : Key) :
    List.Sublist (odDel l k) l := by
  induction l with
  | nil => simp [odDel]
  | cons p rest ih =>
    obtain ⟨a, b⟩ := p
    by_cases h : a = k
    · simp [odDel, h]
    · simpa [odDel, h] using ih.cons₂ (a, b)

theorem odFind_odDel_ne {β : Type} (l : List (Key × β)) {k k' : Key}
    (h : k' ≠ k) : odFind (odDel l k) k' = odFind l k' := by
  induction l with
  | nil => simp [odDel]
  | cons p rest ih =>
    obtain ⟨a, b⟩ := p
    by_cases hak : a = k
    · subst hak; simp [odDel, odFind, Ne.symm h]
    · by_cases hak' : a = k' <;> simp [odDel, odFind, hak, hak', h, ih]

theorem odFind_odDel_self {β : Type} {l : List (Key × β)} (k : Key)
    (h : (odKeys l).Nodup) : odFind (odDel l k) k = none := by
  rw [odFind_eq_none_iff, odKeys_odDel]
  exact h.not_mem_erase

/-- Moving a present key to the end of a duplicate-free list keeps it
duplicate-free. -/
theorem moveEnd_nodup {l : List Key} (k : Key) (h : l.Nodup) :
    (l.erase k ++ [k]).Nodup := by
  refine List.Nodup.append (h.erase k) (List.nodup_singleton k) ?_
  intro a ha hmem
  rw [List.mem_singleton] at hmem
  subst hmem
  exact h.not_mem_erase ha

/-- Moving a present key to the end of a duplicate-free list does not change
the key set. -/
theorem mem_moveEnd {l : List Key} {k : Key} (h : l.Nodup) (hk : k ∈ l) (x : Key) :
    x ∈ l.erase k ++ [k] ↔ x ∈ l := by
  by_cases hxk : x = k
  · subst hxk; simp [hk]
  · simp [List.mem_append, h.mem_erase_iff, hxk]

/-- In an expiry list with non-decreasing timestamps, every recorded
timestamp is at least the front one. -/
theorem sorted_head_le {rest : List (Key × Time)} {k0 k : Key} {e0 e : Time}
    (hs : (((k0, e0) :: rest).map Prod.snd).Pairwise (· ≤ ·))
    (hf : odFind ((k0, e0) :: rest) k = some e) : e0 ≤ e := by
  rw [List.map_cons, List.pairwise_cons] at hs
  unfold odFind at hf
  by_cases hk : k0 = k
  · rw [if_pos hk] at hf
    cases hf
    exact le_refl e0
  · rw [if_neg hk] at hf
    exact hs.1 e (odFind_mem_values hf)

/-- Behaviour of one full `expire` scan, on the raw components: it succeeds on
consistent inputs, removes exactly a front segment, preserves consistency,
keeps every still-live record, and — when the expiry list is non-decreasing —
leaves exactly the keys whose recorded expiry is `≥ now` in the store. -/
theorem expireLoop_spec (now : Time) :
    ∀ (ex : List (Key × Time)) (d : List (Key × Value)) (o : List Key),
    (odKeys ex).Nodup → (odKeys d).Nodup → o.Nodup →
    (∀ k, k ∈ odKeys ex ↔ k ∈ odKeys d) →
    (∀ k, k ∈ o ↔ k ∈ odKeys d) →
    ∃ ex' d' o', expireLoop now ex d o = some (ex', d', o') ∧
      List.IsSuffix ex' ex ∧
      (odKeys ex').Nodup ∧ (odKeys d').Nodup ∧ o'.Nodup ∧
      (∀ k, k ∈ odKeys ex' ↔ k ∈ odKeys d') ∧
      (∀ k, k ∈ o' ↔ k ∈ odKeys d') ∧
      (∀ k e, odFind ex' k = some e → odFind ex k = some e) ∧
      (∀ k e, odFind ex k = some e → now ≤ e → odFind ex' k = some e) ∧
      List.Sublist o' o ∧
      ((ex.map Prod.snd).Pairwise (· ≤ ·) →
        ∀ k, k ∈ odKeys d' ↔ ∃ e, odFind ex k = some e ∧ now ≤ e) := by
  intro ex
  induction ex with
  | nil =>
    intro d o hne hnd hno hed hod
    refine ⟨[], d, o, rfl, List.nil_suffix, hne, hnd, hno, hed, hod,
      fun _ _ hfind => hfind, fun _ _ hfind _ => hfind, List.Sublist.refl o, ?_⟩
    intro _ k
    constructor
    · intro hk
      exact absurd ((hed k).mpr hk) (by simp [odKeys])
    · rintro ⟨e, he, -⟩
      simp [odFind] at he
  | cons p rest ih =>
    obtain ⟨k0, e0⟩ := p
    intro d o hne hnd hno hed hod
    by_cases hl : e0 ≥ now
    · -- the front entry is still live: the scan stops at once
      refine ⟨(k0, e0) :: rest, d, o, by simp [expireLoop, hl], List.suffix_refl _,
        hne, hnd, hno, hed, hod, fun _ _ hfind => hfind, fun _ _ hfind _ => hfind,
        List.Sublist.refl o, ?_⟩
      intro hs k
      constructor
      · intro hk
        have hmem := (hed k).mpr hk
        rw [mem_odKeys_iff_isSome] at hmem
        obtain ⟨e, he⟩ := Option.isSome_iff_exists.mp hmem
        exact ⟨e, he, le_trans hl (sorted_head_le hs he)⟩
      · rintro ⟨e, he, -⟩
        exact (hed k).mp (mem_odKeys_of_find he)
    · -- the front entry is expired: it is removed from all three structures
      rw [odKeys_cons] at hne
      have hk0rest : k0 ∉ odKeys rest := (List.nodup_cons.mp hne).1
      have hne' : (odKeys rest).Nodup := (List.nodup_cons.mp hne).2
      have hk0d : k0 ∈ odKeys d := (hed k0).mp (by rw [odKeys_cons]; exact List.mem_cons_self k0 _)
      have hk0some : (odFind d k0).isSome := (mem_odKeys_iff_isSome d k0).mp hk0d
      have hk0o : k0 ∈ o := (hod k0).mpr hk0d
      have hstep : expireLoop now ((k0, e0) :: rest) d o =
          expireLoop now rest (odDel d k0) (o.erase k0) := by
        simp [expireLoop, hl, hk0some, hk0o]
      have hnd' : (odKeys (odDel d k0)).Nodup := by
        rw [odKeys_odDel]; exact hnd.erase k0
      have hno' : (o.erase k0).Nodup := hno.erase k0
      have hed' : ∀ k, k ∈ odKeys rest ↔ k ∈ odKeys (odDel d k0) := by
        intro k
        rw [odKeys_odDel]
        by_cases hk : k = k0
        · subst hk
          simp [hk0rest, hnd.not_mem_erase]
        · rw [hnd.mem_erase_iff]
          constructor
          · intro hk'
            exact ⟨hk, (hed k).mp (by rw [odKeys_cons]; exact List.mem_cons_of_mem _ hk')⟩
          · rintro ⟨-, hk'⟩
            have hmem := (hed k).mpr hk'
            rw [odKeys_cons, List.mem_cons] at hmem
            exact hmem.resolve_left hk
      have hod' : ∀ k, k ∈ o.erase k0 ↔ k ∈ odKeys (odDel d k0) := by
        intro k
        rw [odKeys_odDel, hno.mem_erase_iff, hnd.mem_erase_iff, hod k]
      obtain ⟨ex', d', o', hrun, hsuf, h1, h2, h3, h4, h5, hpres, hlive, hsub, hsorted⟩ :=
        ih (odDel d k0) (o.erase k0) hne' hnd' hno' hed' hod'
      refine ⟨ex', d', o', by rw [hstep]; exact hrun,
        hsuf.trans (List.suffix_cons (k0, e0) rest), h1, h2, h3, h4, h5, ?_, ?_,
        hsub.trans (List.erase_sublist k0 o), ?_⟩
      · -- a surviving record was already recorded before the scan
        intro k e hfind
        have hr := hpres k e hfind
        have hkk0 : ¬ k0 = k := by
          intro heq
          exact hk0rest (heq ▸ mem_odKeys_of_find hr)
        unfold odFind
        rw [if_neg hkk0]
        exact hr
      · -- live records survive the scan
        intro k e hfind hnow
        unfold odFind at hfind
        by_cases hkk0 : k0 = k
        · rw [if_pos hkk0] at hfind
          cases hfind
          exact absurd hnow hl
        · rw [if_neg hkk0] at hfind
          exact hlive k e hfind hnow
      · -- with a monotone expiry list, exactly the live keys remain
        intro hs k
        rw [List.map_cons, List.pairwise_cons] at hs
        rw [hsorted hs.2 k]
        constructor
        · rintro ⟨e, he, hnow⟩
          have hkk0 : ¬ k0 = k := by
            intro heq
            exact hk0rest (heq ▸ mem_odKeys_of_find he)
          refine ⟨e, ?_, hnow⟩
          unfold odFind
          rw [if_neg hkk0]
          exact he
        · rintro ⟨e, he, hnow⟩
          unfold odFind at he
          by_cases hkk0 : k0 = k
          · rw [if_pos hkk0] at he
            cases he
            exact absurd hnow hl
          · rw [if_neg hkk0] at he
            exact ⟨e, he, hnow⟩

/-! ## Invariant preservation by the cache operations -/

theorem Inv.mono {s : CacheState} {t t' : Time} (h : Inv s t) (hle : t ≤ t') :
    Inv s t' :=
  ⟨h.wf, h.sorted, fun e he => le_trans (h.bound e he) (add_le_add_right hle s.ttl)⟩

/-- Behaviour of `TTLCache.expire` on an invariant-satisfying state: it
succeeds, preserves the invariant and the configuration, only deletes, keeps
every live record, and leaves exactly the live keys in the store. -/
theorem expire_spec {s : CacheState} {t : Time} (h : Inv s t) (now : Time) :
    ∃ s', expire s now = some s' ∧ Inv s' t ∧
      s'.maxsize = s.maxsize ∧ s'.ttl = s.ttl ∧
      (∀ k e, odFind s'.expiry_info k = some e → odFind s.expiry_info k = some e) ∧
      (∀ k e, odFind s.expiry_info k = some e → now ≤ e → odFind s'.expiry_info k = some e) ∧
      (∀ k, k ∈ dataKeys s' ↔ ∃ e, odFind s.expiry_info k = some e ∧ now ≤ e) ∧
      List.Sublist s'.order s.order := by
  obtain ⟨ex', d', o', hrun, hsuf, h1, h2, h3, h4, h5, hpres, hlive, hsub, hmem⟩ :=
    expireLoop_spec now s.expiry_info s.data s.order
      h.wf.ndExp h.wf.ndData h.wf.ndOrd h.wf.expData h.wf.ordData
  refine ⟨{ s with data := d', expiry_info := ex', order := o' }, ?_, ?_, rfl, rfl,
    hpres, hlive, hmem h.sorted, hsub⟩
  · simp [expire, hrun]
  · refine ⟨⟨h2, h1, h3, h4, h5⟩, ?_, ?_⟩
    · exact h.sorted.sublist ((hsuf.sublist).map Prod.snd)
    · intro e he
      exact h.bound e (((hsuf.sublist).map Prod.snd).subset he)

/-- Fields of the state left by a successful `expire`: the configuration is
untouched. -/
theorem expire_fields {s s' : CacheState} {now : Time} (h : expire s now = some s') :
    s'.maxsize = s.maxsize ∧ s'.ttl = s.ttl := by
  unfold expire at h
  cases hrun : expireLoop now s.expiry_info s.data s.order with
  | none => rw [hrun] at h; cases h
  | some r =>
    obtain ⟨e, d, o⟩ := r
    rw [hrun] at h
    cases h
    exact ⟨rfl, rfl⟩

/-- Characterization of a successful `__getexpiry`. -/
theorem getexpiry_eq_some {s s' : CacheState} {k : Key} {e : Time}
    (h : getexpiry s k = some (e, s')) :
    odFind s.expiry_info k = some e ∧ k ∈ s.order ∧
    s' = { s with order := s.order.erase k ++ [k] } := by
  unfold getexpiry at h
  split at h
  · cases h
  · rename_i e' hf
    split at h
    · rename_i ho
      cases h
      exact ⟨hf, ho, rfl⟩
    · cases h

/-- Conditions under which `__getexpiry` raises. -/
theorem getexpiry_eq_none {s : CacheState} {k : Key}
    (h : getexpiry s k = none) :
    odFind s.expiry_info k = none ∨ k ∉ s.order := by
  unfold getexpiry at h
  split at h
  · rename_i hf
    exact Or.inl hf
  · split at h
    · cases h
    · rename_i ho
      exact Or.inr ho

/-- Moving a present key to the MRU end preserves well-formedness. -/
theorem WF_moveEnd {s : CacheState} (h : WF s) {k : Key} (hk : k ∈ s.order) :
    WF { s with order := s.order.erase k ++ [k] } :=
  ⟨h.ndData, h.ndExp, moveEnd_nodup k h.ndOrd, h.expData,
   fun x => (mem_moveEnd h.ndOrd hk x).trans (h.ordData x)⟩

/-- Method `__getitem__` touches only the order index: store, Expiry Index and
configuration are untouched, whatever the outcome. -/
theorem getitem_fields (s : CacheState) (k : Key) (now : Time) :
    ((getitem s k now).2).data = s.data ∧
    ((getitem s k now).2).expiry_info = s.expiry_info ∧
    ((getitem s k now).2).maxsize = s.maxsize ∧
    ((getitem s k now).2).ttl = s.ttl := by
  unfold getitem
  split
  · exact ⟨rfl, rfl, rfl, rfl⟩
  · rename_i p e s' hg
    obtain ⟨-, -, hs'⟩ := getexpiry_eq_some hg
    subst hs'
    split
    · exact ⟨rfl, rfl, rfl, rfl⟩
    · exact ⟨rfl, rfl, rfl, rfl⟩

/-- Characterization of a successful `Cache.__delitem__`. -/
theorem cache_delitem_eq_some {s s1 : CacheState} {k : Key}
    (h : cache_delitem s k = some s1) :
    (odFind s.data k).isSome ∧ s1 = { s with data := odDel s.data k } := by
  unfold cache_delitem at h
  split at h
  · cases h
  · cases h
    rename_i v hv
    exact ⟨by rw [hv]; rfl, rfl⟩

/-- Method `Cache.__delitem__` succeeds exactly on present keys. -/
theorem cache_delitem_of_mem {s : CacheState} {k : Key} (h : k ∈ dataKeys s) :
    cache_delitem s k = some { s with data := odDel s.data k } := by
  have h' : (odFind s.data k).isSome := (mem_odKeys_iff_isSome s.data k).mp h
  obtain ⟨v, hv⟩ := Option.isSome_iff_exists.mp h'
  unfold cache_delitem
  rw [hv]

/-- Removing one key from all three structures preserves the invariant. -/
theorem Inv_eraseAll {s : CacheState} {t : Time} (h : Inv s t) (k : Key) :
    Inv { s with data := odDel s.data k, order := s.order.erase k,
                 expiry_info := odDel s.expiry_info k } t := by
  refine ⟨⟨?_, ?_, ?_, ?_, ?_⟩, ?_, ?_⟩
  · show (odKeys (odDel s.data k)).Nodup
    rw [odKeys_odDel]
    exact h.wf.ndData.erase k
  · show (odKeys (odDel s.expiry_info k)).Nodup
    rw [odKeys_odDel]
    exact h.wf.ndExp.erase k
  · exact h.wf.ndOrd.erase k
  · intro x
    have ndE : (odKeys s.expiry_info).Nodup := h.wf.ndExp
    have ndD : (odKeys s.data).Nodup := h.wf.ndData
    show x ∈ odKeys (odDel s.expiry_info k) ↔ x ∈ odKeys (odDel s.data k)
    rw [odKeys_odDel, odKeys_odDel, ndE.mem_erase_iff, ndD.mem_erase_iff]
    exact and_congr_right fun _ => h.wf.expData x
  · intro x
    have ndD : (odKeys s.data).Nodup := h.wf.ndData
    show x ∈ s.order.erase k ↔ x ∈ odKeys (odDel s.data k)
    rw [odKeys_odDel, h.wf.ndOrd.mem_erase_iff, ndD.mem_erase_iff]
    exact and_congr_right fun _ => h.wf.ordData x
  · show ((odDel s.expiry_info k).map Prod.snd).Pairwise (· ≤ ·)
    exact h.sorted.sublist ((odDel_sublist s.expiry_info k).map Prod.snd)
  · intro e he
    exact h.bound e (((odDel_sublist s.expiry_info k).map Prod.snd).subset he)

/-- Method `__delitem__` on a present key physically removes it from all three
structures, raising afterwards exactly when the removed record was already
expired. -/
theorem delitem_present {s : CacheState} {k : Key} {e : Time} (hwf : WF s)
    (hf : odFind s.expiry_info k = some e) (now : Time) :
    delitem s k now =
      (if e < now then DelResult.keyError else DelResult.ok)
        { s with data := odDel s.data k, order := s.order.erase k,
                 expiry_info := odDel s.expiry_info k } := by
  have hkd : k ∈ dataKeys s := (hwf.expData k).mp (mem_odKeys_of_find hf)
  have hko : k ∈ s.order := (hwf.ordData k).mpr hkd
  unfold delitem
  rw [cache_delitem_of_mem hkd]
  simp only [hko, if_true, hf]
  by_cases hex : e < now
  · simp [hex]
  · simp [hex]

/-- Method `__delitem__` preserves the invariant whatever its outcome, does
not touch the configuration, and never adds keys to the store. -/
theorem delitem_inv {s : CacheState} {t : Time} (h : Inv s t) (k : Key) (now : Time) :
    Inv ((delitem s k now).state) t ∧
    ((delitem s k now).state).maxsize = s.maxsize ∧
    ((delitem s k now).state).ttl = s.ttl ∧
    (∀ x, x ∈ dataKeys ((delitem s k now).state) → x ∈ dataKeys s) := by
  by_cases hkd : k ∈ dataKeys s
  · have hke : (odFind s.expiry_info k).isSome :=
      (mem_odKeys_iff_isSome s.expiry_info k).mp ((h.wf.expData k).mpr hkd)
    obtain ⟨e, he⟩ := Option.isSome_iff_exists.mp hke
    rw [delitem_present h.wf he now]
    have hres := Inv_eraseAll h k
    have hsubset : ∀ x, x ∈ odKeys (odDel s.data k) → x ∈ dataKeys s := by
      intro x hx
      have ndD : (odKeys s.data).Nodup := h.wf.ndData
      rw [odKeys_odDel, ndD.mem_erase_iff] at hx
      exact hx.2
    by_cases hex : e < now
    · rw [if_pos hex]
      exact ⟨hres, rfl, rfl, hsubset⟩
    · rw [if_neg hex]
      exact ⟨hres, rfl, rfl, hsubset⟩
  · have hnone : odFind s.data k = none := (odFind_eq_none_iff s.data k).mpr hkd
    have : delitem s k now = .keyError s := by
      unfold delitem cache_delitem
      rw [hnone]
    rw [this]
    exact ⟨h, rfl, rfl, fun x hx => hx⟩

/-- Method `__delitem__` never touches the configuration. -/
theorem delitem_fields (s : CacheState) (k : Key) (now : Time) :
    ((delitem s k now).state).maxsize = s.maxsize ∧
    ((delitem s k now).state).ttl = s.ttl := by
  unfold delitem
  split
  · exact ⟨rfl, rfl⟩
  · rename_i s1 hc
    obtain ⟨-, hs1⟩ := cache_delitem_eq_some hc
    subst hs1
    split
    · split
      · exact ⟨rfl, rfl⟩
      · split
        · exact ⟨rfl, rfl⟩
        · exact ⟨rfl, rfl⟩
    · exact ⟨rfl, rfl⟩

/-- Method `__getitem__` preserves the invariant. -/
theorem getitem_inv {s : CacheState} {t : Time} (h : Inv s t) (k : Key) (now : Time) :
    Inv ((getitem s k now).2) t := by
  unfold getitem
  split
  · exact h
  · rename_i p e s' hg
    obtain ⟨-, ho, hs'⟩ := getexpiry_eq_some hg
    subst hs'
    have hwf := WF_moveEnd h.wf ho
    split
    · exact ⟨hwf, h.sorted, h.bound⟩
    · exact ⟨hwf, h.sorted, h.bound⟩

/-- A successful `popitem` never touches the configuration. -/
theorem popitem_fields {s s' : CacheState} {now : Time} {kv : Key × Value}
    (hp : popitem s now = .ok kv s') :
    s'.maxsize = s.maxsize ∧ s'.ttl = s.ttl := by
  unfold popitem at hp
  split at hp
  · cases hp
  · rename_i s1 hexp
    obtain ⟨hm1, ht1⟩ := expire_fields hexp
    split at hp
    · cases hp
    · rename_i k rest horder
      split at hp
      · cases hp
      · rename_i v s2 hget
        obtain ⟨-, -, hm2, ht2⟩ := getitem_fields s1 k now
        simp only [hget] at hm2 ht2
        split at hp
        · rename_i s3 hdel
          cases hp
          obtain ⟨hm3, ht3⟩ := delitem_fields s2 k now
          simp only [hdel, DelResult.state] at hm3 ht3
          exact ⟨by rw [hm3, hm2, hm1], by rw [ht3, ht2, ht1]⟩
        · cases hp

/-- A successful `popitem` preserves the invariant, never touches the
configuration, and only removes keys from the store. -/
theorem popitem_inv {s s' : CacheState} {t now : Time} {kv : Key × Value}
    (h : Inv s t) (hp : popitem s now = .ok kv s') :
    Inv s' t ∧ (∀ x, x ∈ dataKeys s' → x ∈ dataKeys s) := by
  obtain ⟨s1, hexp, hInv1, -, -, -, -, hmem1, -⟩ := expire_spec h now
  have hsub1 : ∀ x, x ∈ dataKeys s1 → x ∈ dataKeys s := by
    intro x hx
    obtain ⟨e, he, -⟩ := (hmem1 x).mp hx
    exact (h.wf.expData x).mp (mem_odKeys_of_find he)
  unfold popitem at hp
  split at hp
  · cases hp
  · rename_i s1' hexp'
    rw [hexp] at hexp'
    cases hexp'
    split at hp
    · cases hp
    · rename_i k rest horder
      split at hp
      · cases hp
      · rename_i v s2 hget
        have hInv2 : Inv s2 t := by
          have hmain := getitem_inv hInv1 k now
          rwa [hget] at hmain
        have hdata2 : s2.data = s1.data := by
          have hmain := (getitem_fields s1 k now).1
          rwa [hget] at hmain
        split at hp
        · rename_i s3 hdel
          cases hp
          obtain ⟨hInv3, -, -, hsub3⟩ := delitem_inv hInv2 k now
          rw [hdel] at hInv3 hsub3
          refine ⟨hInv3, ?_⟩
          intro x hx
          have hx2 := hsub3 x hx
          have hx1 : x ∈ dataKeys s1 := by
            show x ∈ odKeys s1.data
            rw [← hdata2]
            exact hx2
          exact hsub1 x hx1
        · cases hp

/-- A successful eviction loop never touches the configuration. -/
theorem evictLoop_fields : ∀ (fuel : Nat) {s s' : CacheState} {now : Time},
    evictLoop now fuel s = some s' → s'.maxsize = s.maxsize ∧ s'.ttl = s.ttl
  | 0, s, s', now, hev => by cases hev
  | fuel + 1, s, s', now, hev => by
    unfold evictLoop at hev
    split at hev
    · split at hev
      · rename_i kv s1 hpop
        obtain ⟨hm1, ht1⟩ := popitem_fields hpop
        obtain ⟨hm', ht'⟩ := evictLoop_fields fuel hev
        exact ⟨by rw [hm', hm1], by rw [ht', ht1]⟩
      · cases hev
    · cases hev
      exact ⟨rfl, rfl⟩

/-- The eviction loop preserves the invariant and only removes keys. -/
theorem evictLoop_inv : ∀ (fuel : Nat) {s s' : CacheState} {t now : Time},
    Inv s t → evictLoop now fuel s = some s' →
    Inv s' t ∧ (∀ x, x ∈ dataKeys s' → x ∈ dataKeys s)
  | 0, s, s', t, now, h, hev => by cases hev
  | fuel + 1, s, s', t, now, h, hev => by
    unfold evictLoop at hev
    split at hev
    · split at hev
      · rename_i kv s1 hpop
        obtain ⟨hInv1, hsub1⟩ := popitem_inv h hpop
        obtain ⟨hInv', hsub'⟩ := evictLoop_inv fuel hInv1 hev
        exact ⟨hInv', fun x hx => hsub1 x (hsub' x hx)⟩
      · cases hev
    · cases hev
      exact ⟨h, fun x hx => hx⟩

/-- A successful Bounded Store write never touches the configuration. -/
theorem cache_setitem_fields {s s2 : CacheState} {k : Key} {v : Value} {now : Time}
    (hc : cache_setitem s k v now = some s2) :
    s2.maxsize = s.maxsize ∧ s2.ttl = s.ttl := by
  unfold cache_setitem at hc
  split at hc
  · cases hc
  · split at hc
    · cases hc
      exact ⟨rfl, rfl⟩
    · split at hc
      · cases hc
      · rename_i s1 hev
        cases hc
        obtain ⟨hm, ht⟩ := evictLoop_fields _ hev
        exact ⟨hm, ht⟩

/-- Structure of a successful Bounded Store write: either an in-place
overwrite of a present key, or — for a new key — an eviction phase followed by
an append. -/
theorem cache_setitem_spec {s s2 : CacheState} {t now : Time} {k : Key} {v : Value}
    (h : Inv s t) (hc : cache_setitem s k v now = some s2) :
    (k ∈ dataKeys s ∧ s2 = { s with data := odSet s.data k v }) ∨
    (∃ s1, Inv s1 t ∧ s1.maxsize = s.maxsize ∧ s1.ttl = s.ttl ∧
      (∀ x, x ∈ dataKeys s1 → x ∈ dataKeys s) ∧ k ∉ dataKeys s1 ∧
      s2 = { s1 with data := odSet s1.data k v }) := by
  unfold cache_setitem at hc
  split at hc
  · cases hc
  · split at hc
    · rename_i hsome
      cases hc
      exact Or.inl ⟨(mem_odKeys_iff_isSome s.data k).mpr hsome, rfl⟩
    · rename_i hnone
      have hknot : k ∉ dataKeys s := fun hmem =>
        hnone ((mem_odKeys_iff_isSome s.data k).mp hmem)
      split at hc
      · cases hc
      · rename_i s1 hev
        cases hc
        obtain ⟨hInv1, hsub1⟩ := evictLoop_inv _ h hev
        exact Or.inr ⟨s1, hInv1, (evictLoop_fields _ hev).1, (evictLoop_fields _ hev).2,
          hsub1, fun hmem => hknot (hsub1 k hmem), rfl⟩

/-- A successful Bounded Store write to an already-present key is an in-place
overwrite. -/
theorem cache_setitem_overwrite {s s2 : CacheState} {k : Key} {v : Value} {now : Time}
    (hkd : k ∈ dataKeys s) (hc : cache_setitem s k v now = some s2) :
    s2 = { s with data := odSet s.data k v } := by
  unfold cache_setitem at hc
  split at hc
  · cases hc
  · split at hc
    · cases hc
      rfl
    · rename_i hnone
      exact absurd ((mem_odKeys_iff_isSome s.data k).mp hkd) hnone

theorem mem_odSetUnit_self (l : List Key) (k : Key) : k ∈ odSetUnit l k := by
  unfold odSetUnit
  split
  · assumption
  · exact List.mem_append_right l (List.mem_singleton_self k)

theorem nodup_append_single {l : List Key} {a : Key} (h : l.Nodup) (ha : a ∉ l) :
    (l ++ [a]).Nodup := by
  refine List.Nodup.append h (List.nodup_singleton a) ?_
  intro x hx hmem
  rw [List.mem_singleton] at hmem
  subst hmem
  exact ha hx

theorem pairwise_append_single {l : List Time} {a : Time}
    (h : l.Pairwise (· ≤ ·)) (ha : ∀ x ∈ l, x ≤ a) : (l ++ [a]).Pairwise (· ≤ ·) := by
  rw [List.pairwise_append]
  refine ⟨h, List.pairwise_singleton _ a, ?_⟩
  intro x hx b hb
  rw [List.mem_singleton] at hb
  subst hb
  exact ha x hx

/-- State reached by a successful `__setitem__`: the written key carries the
fresh expiry `now + ttl`, sits in the order index, and the configuration is
untouched. No consistency assumption is needed. -/
theorem setitem_post {s s' : CacheState} {k : Key} {v : Value} {now : Time}
    (hs : setitem s k v now = some s') :
    odFind s'.expiry_info k = some (now + s.ttl) ∧ k ∈ s'.order ∧
    s'.ttl = s.ttl ∧ s'.maxsize = s.maxsize := by
  unfold setitem at hs
  split at hs
  · cases hs
  · rename_i sE hexp
    obtain ⟨hmE, htE⟩ := expire_fields hexp
    split at hs
    · cases hs
    · rename_i s2 hcs
      obtain ⟨hm2, ht2⟩ := cache_setitem_fields hcs
      split at hs
      · cases hs
        refine ⟨?_, mem_odSetUnit_self s2.order k, ?_, ?_⟩
        · show odFind (odSet s2.expiry_info k (now + s2.ttl)) k = some (now + s.ttl)
          rw [odFind_odSet_self, ht2, htE]
        · show s2.ttl = s.ttl
          rw [ht2, htE]
        · show s2.maxsize = s.maxsize
          rw [hm2, hmE]
      · rename_i p e s3 hge
        obtain ⟨hf2, ho2, hs3⟩ := getexpiry_eq_some hge
        subst hs3
        cases hs
        refine ⟨?_, ?_, ?_, ?_⟩
        · show odFind (odSet (odDel s2.expiry_info k) k (now + s2.ttl)) k =
            some (now + s.ttl)
          rw [odFind_odSet_self, ht2, htE]
        · show k ∈ s2.order.erase k ++ [k]
          exact List.mem_append_right _ (List.mem_singleton_self k)
        · show s2.ttl = s.ttl
          rw [ht2, htE]
        · show s2.maxsize = s.maxsize
          rw [hm2, hmE]

theorem odSetUnit_of_not_mem {l : List Key} {k : Key} (h : k ∉ l) :
    odSetUnit l k = l ++ [k] := by
  unfold odSetUnit
  rw [if_neg h]

/-- Method `__setitem__` preserves the invariant, re-based at the snapshot
time, and never touches the configuration. -/
theorem setitem_inv {s s' : CacheState} {t now : Time} {k : Key} {v : Value}
    (h : Inv s t) (hle : t ≤ now) (hs : setitem s k v now = some s') :
    Inv s' now ∧ s'.maxsize = s.maxsize ∧ s'.ttl = s.ttl := by
  have hpost := setitem_post hs
  refine ⟨?_, hpost.2.2.2, hpost.2.2.1⟩
  unfold setitem at hs
  split at hs
  · cases hs
  · rename_i sE hexp'
    obtain ⟨sE, hexp, hInvE, -, -, -, -, -, -⟩ := expire_spec h now
    rw [hexp] at hexp'
    cases hexp'
    split at hs
    · cases hs
    · rename_i s2 hcs
      rcases cache_setitem_spec hInvE hcs with ⟨hkdE, hs2⟩ |
        ⟨s1, hInv1, -, -, -, hknot1, hs2⟩
      · -- overwrite of a key that survived the purge
        subst hs2
        have ndD : (odKeys sE.data).Nodup := hInvE.wf.ndData
        have ndE : (odKeys sE.expiry_info).Nodup := hInvE.wf.ndExp
        have ndO : sE.order.Nodup := hInvE.wf.ndOrd
        split at hs
        · rename_i hge
          exfalso
          rcases getexpiry_eq_none hge with hf | ho
          · have hfE : odFind sE.expiry_info k = none := hf
            have hkE : (odFind sE.expiry_info k).isSome :=
              (mem_odKeys_iff_isSome sE.expiry_info k).mp
                ((hInvE.wf.expData k).mpr hkdE)
            rw [hfE] at hkE
            cases hkE
          · exact ho ((hInvE.wf.ordData k).mpr hkdE)
        · rename_i p e s3 hge
          obtain ⟨hf2, ho2, hs3⟩ := getexpiry_eq_some hge
          subst hs3
          cases hs
          have hfE : odFind sE.expiry_info k = some e := hf2
          have hkE : k ∈ odKeys sE.expiry_info := mem_odKeys_of_find hfE
          have hkO : k ∈ sE.order := ho2
          have hknotdel : k ∉ odKeys (odDel sE.expiry_info k) := by
            rw [odKeys_odDel]
            exact ndE.not_mem_erase
          have hodset : odSet (odDel sE.expiry_info k) k (now + sE.ttl) =
              odDel sE.expiry_info k ++ [(k, now + sE.ttl)] :=
            odSet_of_not_mem _ hknotdel
          have hkeys : odKeys (odSet (odDel sE.expiry_info k) k (now + sE.ttl)) =
              (odKeys sE.expiry_info).erase k ++ [k] := by
            rw [hodset, odKeys_append, odKeys_odDel]
            rfl
          have hdkeys : odKeys (odSet sE.data k v) = odKeys sE.data :=
            odKeys_odSet_of_mem sE.data k v hkdE
          have hleft : ∀ x ∈ (odDel sE.expiry_info k).map Prod.snd, x ≤ now + sE.ttl := by
            intro x hx
            have hxE := ((odDel_sublist sE.expiry_info k).map Prod.snd).subset hx
            exact le_trans (hInvE.bound x hxE) (add_le_add_right hle sE.ttl)
          refine ⟨⟨?_, ?_, ?_, ?_, ?_⟩, ?_, ?_⟩
          · show (odKeys (odSet sE.data k v)).Nodup
            rw [hdkeys]
            exact ndD
          · show (odKeys (odSet (odDel sE.expiry_info k) k (now + sE.ttl))).Nodup
            rw [hkeys]
            exact moveEnd_nodup k ndE
          · exact moveEnd_nodup k ndO
          · intro x
            show x ∈ odKeys (odSet (odDel sE.expiry_info k) k (now + sE.ttl)) ↔
              x ∈ odKeys (odSet sE.data k v)
            rw [hkeys, hdkeys, mem_moveEnd ndE hkE x]
            exact hInvE.wf.expData x
          · intro x
            show x ∈ sE.order.erase k ++ [k] ↔ x ∈ odKeys (odSet sE.data k v)
            rw [hdkeys, mem_moveEnd ndO hkO x]
            exact hInvE.wf.ordData x
          · show ((odSet (odDel sE.expiry_info k) k (now + sE.ttl)).map Prod.snd).Pairwise (· ≤ ·)
            rw [hodset, List.map_append]
            exact pairwise_append_single
              (hInvE.sorted.sublist ((odDel_sublist sE.expiry_info k).map Prod.snd)) hleft
          · intro x hx
            show x ≤ now + sE.ttl
            rw [hodset, List.map_append] at hx
            rcases List.mem_append.mp hx with hx | hx
            · exact hleft x hx
            · simp only [List.map_cons, List.map_nil, List.mem_singleton] at hx
              subst hx
              exact le_refl _
      · -- a fresh key, appended to all three structures after eviction
        subst hs2
        have ndD1 : (odKeys s1.data).Nodup := hInv1.wf.ndData
        have ndE1 : (odKeys s1.expiry_info).Nodup := hInv1.wf.ndExp
        have ndO1 : s1.order.Nodup := hInv1.wf.ndOrd
        have hkE1 : k ∉ odKeys s1.expiry_info := fun hmem =>
          hknot1 ((hInv1.wf.expData k).mp hmem)
        have hkO1 : k ∉ s1.order := fun hmem =>
          hknot1 ((hInv1.wf.ordData k).mp hmem)
        split at hs
        · rename_i hge
          cases hs
          have hdata : odKeys (odSet s1.data k v) = odKeys s1.data ++ [k] :=
            odKeys_odSet_of_not_mem v hknot1
          have hexp2 : odSet s1.expiry_info k (now + s1.ttl) =
              s1.expiry_info ++ [(k, now + s1.ttl)] := odSet_of_not_mem _ hkE1
          have hekeys : odKeys (odSet s1.expiry_info k (now + s1.ttl)) =
              odKeys s1.expiry_info ++ [k] := odKeys_odSet_of_not_mem _ hkE1
          have hord : odSetUnit s1.order k = s1.order ++ [k] := odSetUnit_of_not_mem hkO1
          have hleft : ∀ x ∈ s1.expiry_info.map Prod.snd, x ≤ now + s1.ttl := by
            intro x hx
            exact le_trans (hInv1.bound x hx) (add_le_add_right hle s1.ttl)
          refine ⟨⟨?_, ?_, ?_, ?_, ?_⟩, ?_, ?_⟩
          · show (odKeys (odSet s1.data k v)).Nodup
            rw [hdata]
            exact nodup_append_single ndD1 hknot1
          · show (odKeys (odSet s1.expiry_info k (now + s1.ttl))).Nodup
            rw [hekeys]
            exact nodup_append_single ndE1 hkE1
          · show (odSetUnit s1.order k).Nodup
            rw [hord]
            exact nodup_append_single ndO1 hkO1
          · intro x
            show x ∈ odKeys (odSet s1.expiry_info k (now + s1.ttl)) ↔
              x ∈ odKeys (odSet s1.data k v)
            rw [hekeys, hdata, List.mem_append, List.mem_append]
            exact or_congr_left (hInv1.wf.expData x)
          · intro x
            show x ∈ odSetUnit s1.order k ↔ x ∈ odKeys (odSet s1.data k v)
            rw [hord, hdata, List.mem_append, List.mem_append]
            exact or_congr_left (hInv1.wf.ordData x)
          · show ((odSet s1.expiry_info k (now + s1.ttl)).map Prod.snd).Pairwise (· ≤ ·)
            rw [hexp2, List.map_append]
            exact pairwise_append_single hInv1.sorted hleft
          · intro x hx
            show x ≤ now + s1.ttl
            rw [hexp2, List.map_append] at hx
            rcases List.mem_append.mp hx with hx | hx
            · exact hleft x hx
            · simp only [List.map_cons, List.map_nil, List.mem_singleton] at hx
              subst hx
              exact le_refl _
        · rename_i p e s3 hge
          exfalso
          obtain ⟨hf2, -, -⟩ := getexpiry_eq_some hge
          have hfE : odFind s1.expiry_info k = some e := hf2
          exact hkE1 (mem_odKeys_of_find hfE)

/-- Method `clear` preserves the invariant. -/
theorem clear_inv {s s' : CacheState} {t now : Time} (h : Inv s t)
    (hc : clear s now = some s') : Inv s' t := by
  unfold clear at hc
  split at hc
  · cases hc
  · cases hc
    refine ⟨⟨?_, ?_, ?_, ?_, ?_⟩, ?_, ?_⟩
    · exact List.nodup_nil
    · exact List.nodup_nil
    · exact List.nodup_nil
    · intro k; exact Iff.rfl
    · intro k; exact Iff.rfl
    · exact List.Pairwise.nil
    · intro e he
      exact absurd he (List.not_mem_nil e)

/-- A freshly constructed cache satisfies the invariant at any time. -/
theorem Inv_mkCache (m : Nat) (d : Time) (t : Time) : Inv (mkCache m d) t := by
  refine ⟨⟨?_, ?_, ?_, ?_, ?_⟩, ?_, ?_⟩
  · exact List.nodup_nil
  · exact List.nodup_nil
  · exact List.nodup_nil
  · intro k; exact Iff.rfl
  · intro k; exact Iff.rfl
  · exact List.Pairwise.nil
  · intro e he
    exact absurd he (List.not_mem_nil e)

/-- Every reachable cache state satisfies the invariant: the three key sets
agree, the Expiry Index is in non-decreasing expiry order, and all recorded
expiries are bounded by the last seen clock value plus the TTL. -/
theorem reachable_inv {s : CacheState} {t : Time} (h : Reachable s t) : Inv s t := by
  induction h with
  | init m d t => exact Inv_mkCache m d t
  | wait t' hr hle ih => exact ih.mono hle
  | step_set k v hr hset ih => exact (setitem_inv ih (le_refl _) hset).1
  | step_get k hr ih => exact getitem_inv ih k _
  | step_del k hr ih => exact (delitem_inv ih k _).1
  | step_expire t' hr hexp ih =>
    obtain ⟨s1, hexp', hInv1, -, -, -, -, -, -⟩ := expire_spec ih t'
    rw [hexp'] at hexp
    cases hexp
    exact hInv1
  | step_pop kv hr hpop ih => exact (popitem_inv ih hpop).1
  | step_clear t' hr hclear ih => exact clear_inv ih hclear

/-- Overwriting a key that is still present (in the purged state) moves it to
the MRU end of the order index: `__setitem__` reaches `__getexpiry`, whose
`move_to_end` is a touch. -/
theorem setitem_moves_to_end {s sE s' : CacheState} {k : Key} {v : Value}
    {now e : Time} (hexp : expire s now = some sE)
    (hf : odFind sE.expiry_info k = some e)
    (hkd : k ∈ dataKeys sE) (hko : k ∈ sE.order)
    (hs : setitem s k v now = some s') :
    s'.order = sE.order.erase k ++ [k] := by
  unfold setitem at hs
  split at hs
  · cases hs
  · rename_i sE0 hexp'
    rw [hexp] at hexp'
    cases hexp'
    split at hs
    · cases hs
    · rename_i s2 hcs
      have hs2 := cache_setitem_overwrite hkd hcs
      subst hs2
      split at hs
      · rename_i hge
        exfalso
        rcases getexpiry_eq_none hge with hfn | hon
        · have hfn' : odFind sE.expiry_info k = none := hfn
          rw [hf] at hfn'
          cases hfn'
        · exact hon hko
      · rename_i p e2 s3 hge
        obtain ⟨-, -, hs3⟩ := getexpiry_eq_some hge
        subst hs3
        cases hs
        rfl

/-- Running a batch of `set` calls whose clock values never decrease keeps the
invariant (in particular the monotone expiry order). -/
theorem runSets_inv : ∀ (ops : List (Key × Value × Time)) {s s' : CacheState} {t : Time},
    Inv s t → List.Chain (· ≤ ·) t (ops.map (fun p => p.2.2)) →
    runSets s ops = some s' → ∃ t', Inv s' t'
  | [], s, s', t, h, _, hrun => by
    cases hrun
    exact ⟨t, h⟩
  | (k, v, tm) :: rest, s, s', t, h, hchain, hrun => by
    rw [List.map_cons, List.chain_cons] at hchain
    unfold runSets at hrun
    split at hrun
    · cases hrun
    · rename_i s1 hset
      exact runSets_inv rest ((setitem_inv h hchain.1 hset).1) hchain.2 hrun

/-- Inside an open scope (depth at least 1, never dropping below 1), every
timer event returns the cached snapshot and the underlying clock is never
queried. -/
theorem runTimer_const (clock : Nat → Time) :
    ∀ (tr : List TEvent) (st : TimerState), 1 ≤ st.nesting →
    nestOK tr st.nesting = true →
    (∀ x ∈ (runTimer clock tr st).1, x = st.time) ∧
    (runTimer clock tr st).2.samples = st.samples ∧
    (runTimer clock tr st).2.time = st.time
  | [], st, h1, h2 => by
    refine ⟨?_, rfl, rfl⟩
    intro x hx
    simp [runTimer] at hx
  | .enter :: rest, st, h1, h2 => by
    have hne : ¬ st.nesting = 0 := by omega
    have hstep : runTimer clock (.enter :: rest) st =
        ((st.time : Time) :: (runTimer clock rest { st with nesting := st.nesting + 1 }).1,
         (runTimer clock rest { st with nesting := st.nesting + 1 }).2) := by
      simp [runTimer, timerEnter, hne]
    have hok : nestOK rest (st.nesting + 1) = true := h2
    obtain ⟨hout, hsamp, htime⟩ :=
      runTimer_const clock rest { st with nesting := st.nesting + 1 }
        (by show 1 ≤ st.nesting + 1; omega) hok
    rw [hstep]
    refine ⟨?_, hsamp, htime⟩
    intro x hx
    rcases List.mem_cons.mp hx with hx | hx
    · exact hx
    · exact hout x hx
  | .call :: rest, st, h1, h2 => by
    have hne : ¬ st.nesting = 0 := by omega
    have hstep : runTimer clock (.call :: rest) st =
        ((st.time : Time) :: (runTimer clock rest st).1,
         (runTimer clock rest st).2) := by
      simp [runTimer, timerCall, hne]
    have hok : nestOK rest st.nesting = true := h2
    obtain ⟨hout, hsamp, htime⟩ := runTimer_const clock rest st h1 hok
    rw [hstep]
    refine ⟨?_, hsamp, htime⟩
    intro x hx
    rcases List.mem_cons.mp hx with hx | hx
    · exact hx
    · exact hout x hx
  | .exit :: rest, st, h1, h2 => by
    unfold nestOK at h2
    rw [Bool.and_eq_true, decide_eq_true_eq] at h2
    have hstep : runTimer clock (.exit :: rest) st =
        runTimer clock rest { st with nesting := st.nesting - 1 } := by
      simp [runTimer, timerExit]
    obtain ⟨hout, hsamp, htime⟩ :=
      runTimer_const clock rest { st with nesting := st.nesting - 1 }
        (by show 1 ≤ st.nesting - 1; omega) h2.2
    rw [hstep]
    exact ⟨hout, hsamp, htime⟩

/-! ## Claim theorems -/

/-- C1, counterexample: the claim "set(k, v) on a key k already present with a
recorded expiry does not change k's position in the Access Order Index
relative to untouched keys" is false. In the state below, key 0 has recorded
expiry 100 and sits before key 1 in the order index; after `set(0, 99)` at
time 5 it sits after key 1: `__setitem__` reaches `__getexpiry`, whose
`move_to_end` moves the overwritten key to the MRU end. -/
theorem C1_counterexample :
    odFind (⟨[(0, 11), (1, 12)], [(0, 100), (1, 101)], [0, 1], 2, 10⟩ :
      CacheState).expiry_info 0 = some 100 ∧
    setitem ⟨[(0, 11), (1, 12)], [(0, 100), (1, 101)], [0, 1], 2, 10⟩ 0 99 5 =
      some ⟨[(0, 99), (1, 12)], [(1, 101), (0, 15)], [1, 0], 2, 10⟩ ∧
    List.indexOf 0 ([0, 1] : List Key) < List.indexOf 1 ([0, 1] : List Key) ∧
    ¬ List.indexOf 0 ([1, 0] : List Key) < List.indexOf 1 ([1, 0] : List Key) := by
  refine ⟨rfl, by decide, by decide, by decide⟩

/-- C1, amended: overwriting a key that is still recorded (and present) after
the purge moves it to the MRU end of the Access Order Index — `set` performs a
touch on an existing key via `__getexpiry`'s `move_to_end` — while the
relative order of all untouched keys is preserved (the order index becomes the
purged order with k removed, a sublist, followed by k). -/
theorem C1_overwrite_touches {s sE s' : CacheState} {k : Key} {v : Value}
    {now e : Time} (hexp : expire s now = some sE)
    (hf : odFind sE.expiry_info k = some e)
    (hkd : k ∈ dataKeys sE) (hko : k ∈ sE.order)
    (hs : setitem s k v now = some s') :
    s'.order = sE.order.erase k ++ [k] ∧
    List.Sublist (sE.order.erase k) sE.order :=
  ⟨setitem_moves_to_end hexp hf hkd hko hs, List.erase_sublist k sE.order⟩

/-- C1, witness for the amended claim at a concrete overwrite. -/
theorem C1_overwrite_touches_witness :
    (⟨[(0, 99), (1, 12)], [(1, 101), (0, 15)], [1, 0], 2, 10⟩ :
      CacheState).order = ([0, 1] : List Key).erase 0 ++ [0] ∧
    List.Sublist (([0, 1] : List Key).erase 0) [0, 1] :=
  @C1_overwrite_touches
    ⟨[(0, 11), (1, 12)], [(0, 100), (1, 101)], [0, 1], 2, 10⟩
    ⟨[(0, 11), (1, 12)], [(0, 100), (1, 101)], [0, 1], 2, 10⟩
    ⟨[(0, 99), (1, 12)], [(1, 101), (0, 15)], [1, 0], 2, 10⟩
    0 99 5 100 (by decide) (by decide) (by decide) (by decide) (by decide)

/-- C2: after every completed public operation (set, delete, expire/purge,
popitem, clear) on an invariant-satisfying state, the key sets of the Expiry
Index, the Access Order Index, and the Bounded Store are pairwise identical. -/
theorem C2_lockstep {s : CacheState} {t now : Time} (h : Inv s t) (hle : t ≤ now) :
    (∀ s' k v, setitem s k v now = some s' → keysAligned s') ∧
    (∀ k, keysAligned ((delitem s k now).state)) ∧
    (∀ s', expire s now = some s' → keysAligned s') ∧
    (∀ kv s', popitem s now = .ok kv s' → keysAligned s') ∧
    (∀ s', clear s now = some s' → keysAligned s') := by
  refine ⟨?_, ?_, ?_, ?_, ?_⟩
  · intro s' k v hs
    have hwf := (setitem_inv h hle hs).1.wf
    exact ⟨hwf.expData, hwf.ordData⟩
  · intro k
    have hwf := (delitem_inv h k now).1.wf
    exact ⟨hwf.expData, hwf.ordData⟩
  · intro s' hexp
    obtain ⟨s1, hexp', hInv1, -, -, -, -, -, -⟩ := expire_spec h now
    rw [hexp'] at hexp
    cases hexp
    exact ⟨hInv1.wf.expData, hInv1.wf.ordData⟩
  · intro kv s' hp
    have hwf := (popitem_inv h hp).1.wf
    exact ⟨hwf.expData, hwf.ordData⟩
  · intro s' hc
    have hwf := (clear_inv h hc).wf
    exact ⟨hwf.expData, hwf.ordData⟩

/-- C2, witness at a concrete one-entry state. -/
theorem C2_lockstep_witness :
    (∀ s' k v, setitem (⟨[(0, 5)], [(0, 10)], [0], 2, 10⟩ : CacheState) k v 0 =
        some s' → keysAligned s') ∧
    (∀ k, keysAligned ((delitem (⟨[(0, 5)], [(0, 10)], [0], 2, 10⟩ : CacheState)
        k 0).state)) ∧
    (∀ s', expire (⟨[(0, 5)], [(0, 10)], [0], 2, 10⟩ : CacheState) 0 = some s' →
        keysAligned s') ∧
    (∀ kv s', popitem (⟨[(0, 5)], [(0, 10)], [0], 2, 10⟩ : CacheState) 0 =
        .ok kv s' → keysAligned s') ∧
    (∀ s', clear (⟨[(0, 5)], [(0, 10)], [0], 2, 10⟩ : CacheState) 0 = some s' →
        keysAligned s') :=
  @C2_lockstep ⟨[(0, 5)], [(0, 10)], [0], 2, 10⟩ 0 0
    ⟨⟨by decide, by decide, by decide, fun k => Iff.rfl, fun k => Iff.rfl⟩,
      by unfold sortedExp; decide, by unfold expBound; decide⟩ le_rfl

/-- C3: purge correctness — for every reachable cache state and every
timestamp `now`, `expire now` succeeds and afterwards a key is in the store
iff its recorded expiry timestamp is `≥ now` (equality at the boundary counts
as alive). -/
theorem C3_purge {s : CacheState} {t : Time} (h : Reachable s t) (now : Time) :
    ∃ s', expire s now = some s' ∧
      ∀ k, k ∈ dataKeys s' ↔ ∃ e, odFind s.expiry_info k = some e ∧ e ≥ now := by
  obtain ⟨s1, hexp, -, -, -, -, -, hmem, -⟩ := expire_spec (reachable_inv h) now
  exact ⟨s1, hexp, hmem⟩

/-- C3, witness on the reachable state after one `set`, purged at a later
time. -/
theorem C3_purge_witness :
    ∃ s', expire (⟨[(0, 5)], [(0, 10)], [0], 2, 10⟩ : CacheState) 20 = some s' ∧
      ∀ k, k ∈ dataKeys s' ↔
        ∃ e, odFind (⟨[(0, 5)], [(0, 10)], [0], 2, 10⟩ :
          CacheState).expiry_info k = some e ∧ e ≥ 20 :=
  C3_purge (Reachable.step_set 0 5 (Reachable.init 2 10 0) (by decide)) 20

/-- C4: deleting a key that is present in all three structures but whose
recorded expiry is `< now` physically removes it from the Bounded Store, the
Access Order Index and the Expiry Index, and then raises `KeyError`, exactly
as for an absent key. -/
theorem C4_delete_expired {s : CacheState} {k : Key} {e now : Time} (hwf : WF s)
    (hf : odFind s.expiry_info k = some e) (he : e < now) :
    ∃ s', delitem s k now = .keyError s' ∧
      k ∉ dataKeys s' ∧ k ∉ s'.order ∧ k ∉ expiryKeys s' ∧
      s'.data = odDel s.data k ∧ s'.order = s.order.erase k ∧
      s'.expiry_info = odDel s.expiry_info k := by
  have hd := delitem_present hwf hf now
  rw [if_pos he] at hd
  refine ⟨_, hd, ?_, ?_, ?_, rfl, rfl, rfl⟩
  · show k ∉ odKeys (odDel s.data k)
    rw [odKeys_odDel]
    exact hwf.ndData.not_mem_erase
  · exact hwf.ndOrd.not_mem_erase
  · show k ∉ odKeys (odDel s.expiry_info k)
    rw [odKeys_odDel]
    exact hwf.ndExp.not_mem_erase

/-- C4, witness: key 0 expired at 5, deleted at time 10. -/
theorem C4_delete_expired_witness :
    ∃ s', delitem (⟨[(0, 1), (1, 2)], [(0, 5), (1, 20)], [0, 1], 2, 10⟩ :
        CacheState) 0 10 = .keyError s' ∧
      0 ∉ dataKeys s' ∧ 0 ∉ s'.order ∧ 0 ∉ expiryKeys s' ∧
      s'.data = odDel (⟨[(0, 1), (1, 2)], [(0, 5), (1, 20)], [0, 1], 2, 10⟩ :
        CacheState).data 0 ∧
      s'.order = (⟨[(0, 1), (1, 2)], [(0, 5), (1, 20)], [0, 1], 2, 10⟩ :
        CacheState).order.erase 0 ∧
      s'.expiry_info = odDel (⟨[(0, 1), (1, 2)], [(0, 5), (1, 20)], [0, 1], 2, 10⟩ :
        CacheState).expiry_info 0 :=
  @C4_delete_expired ⟨[(0, 1), (1, 2)], [(0, 5), (1, 20)], [0, 1], 2, 10⟩ 0 5 10
    ⟨by decide, by decide, by decide, fun k => Iff.rfl, fun k => Iff.rfl⟩
    (by decide) (by decide)

/-- C5: at-boundary liveness — after `set(k, v)` at time `t` with the cache's
TTL `d`, `contains k` is true when the clock reads exactly `t + d`, and at
every strictly later clock reading `contains k` is false and `get k` takes the
missing/not-found path. -/
theorem C5_boundary {s s' : CacheState} {k : Key} {v : Value} {t : Time}
    (hs : setitem s k v t = some s') :
    contains s' k (t + s.ttl) = true ∧
    ∀ now, t + s.ttl < now →
      contains s' k now = false ∧ (getitem s' k now).1 = none := by
  obtain ⟨hf, hko, -, -⟩ := setitem_post hs
  refine ⟨?_, ?_⟩
  · unfold contains
    rw [hf]
    simp
  · intro now hnow
    refine ⟨?_, ?_⟩
    · unfold contains
      rw [hf]
      simp only [ge_iff_le, decide_eq_false_iff_not, not_le]
      exact hnow
    · unfold getitem
      have hge : getexpiry s' k =
          some (t + s.ttl, { s' with order := s'.order.erase k ++ [k] }) := by
        unfold getexpiry
        rw [hf]
        simp [hko]
      rw [hge]
      simp [hnow]

/-- C5, witness: ttl 5, set at 0; alive at 5, gone at 6. -/
theorem C5_boundary_witness :
    contains (⟨[(7, 1)], [(7, 5)], [7], 2, 5⟩ : CacheState) 7 (0 + (5 : Time)) = true ∧
    ∀ now, 0 + (5 : Time) < now →
      contains (⟨[(7, 1)], [(7, 5)], [7], 2, 5⟩ : CacheState) 7 now = false ∧
      (getitem (⟨[(7, 1)], [(7, 5)], [7], 2, 5⟩ : CacheState) 7 now).1 = none :=
  @C5_boundary (mkCache 2 5) ⟨[(7, 1)], [(7, 5)], [7], 2, 5⟩ 7 1 0 (by decide)

/-- C6: LRU eviction under capacity — with maxsize 2 and ttl 10, the sequence
set(a,1)@0, set(b,2)@1, get(a)@2, set(c,3)@3 evicts b (get moved a to the MRU
end, so b is the LRU candidate popped during the capacity eviction), leaving
the store holding exactly {a, c} (a = 0, b = 1, c = 2). -/
theorem C6_lru_eviction :
    setitem (mkCache 2 10) 0 1 0 = some ⟨[(0, 1)], [(0, 10)], [0], 2, 10⟩ ∧
    setitem ⟨[(0, 1)], [(0, 10)], [0], 2, 10⟩ 1 2 1 =
      some ⟨[(0, 1), (1, 2)], [(0, 10), (1, 11)], [0, 1], 2, 10⟩ ∧
    getitem ⟨[(0, 1), (1, 2)], [(0, 10), (1, 11)], [0, 1], 2, 10⟩ 0 2 =
      (some 1, ⟨[(0, 1), (1, 2)], [(0, 10), (1, 11)], [1, 0], 2, 10⟩) ∧
    setitem ⟨[(0, 1), (1, 2)], [(0, 10), (1, 11)], [1, 0], 2, 10⟩ 2 3 3 =
      some ⟨[(0, 1), (2, 3)], [(0, 10), (2, 13)], [0, 2], 2, 10⟩ ∧
    dataKeys ⟨[(0, 1), (2, 3)], [(0, 10), (2, 13)], [0, 2], 2, 10⟩ = [0, 2] ∧
    (1 : Key) ∉ dataKeys ⟨[(0, 1), (2, 3)], [(0, 10), (2, 13)], [0, 2], 2, 10⟩ := by
  decide

/-- C7: expiry monotonicity — any sequence of `set` calls with non-decreasing
clock values, run from a fresh cache, leaves the Expiry Index's iteration
order with non-decreasing expiry timestamps. -/
theorem C7_monotonic {d t0 : Time} {ops : List (Key × Value × Time)}
    {s' : CacheState} {mz : Nat}
    (hchain : List.Chain (· ≤ ·) t0 (ops.map (fun p => p.2.2)))
    (hrun : runSets (mkCache mz d) ops = some s') :
    (s'.expiry_info.map Prod.snd).Pairwise (· ≤ ·) := by
  obtain ⟨t', hInv⟩ := runSets_inv ops (Inv_mkCache mz d t0) hchain hrun
  exact hInv.sorted

/-- C7, witness: three sets (one overwriting an existing key) at times
0, 1, 2. -/
theorem C7_monotonic_witness :
    ((⟨[(0, 3), (1, 2)], [(1, 11), (0, 12)], [1, 0], 2, 10⟩ :
      CacheState).expiry_info.map Prod.snd).Pairwise (· ≤ ·) :=
  @C7_monotonic 10 0 [(0, 1, 0), (1, 2, 1), (0, 3, 2)]
    ⟨[(0, 3), (1, 2)], [(1, 11), (0, 12)], [1, 0], 2, 10⟩ 2
    (List.Chain.cons (by decide)
      (List.Chain.cons (by decide) (List.Chain.cons (by decide) List.Chain.nil)))
    (by decide)

/-- C8: clock-snapshot reentrancy — `now()` at depth 0 queries the underlying
clock; `enter` at depth 0 samples the clock once and caches it; for any event
trace that stays inside the outermost scope (depth never drops below 1), every
nested `enter` and every `now()` call returns that same cached value and the
clock is not queried again; `now()` at depth > 0 returns the cached snapshot
unchanged. -/
theorem C8_timer (clock : Nat → Time) (st0 : TimerState) (h0 : st0.nesting = 0)
    (tr : List TEvent) (hok : nestOK tr 1 = true) :
    timerCall clock st0 = (clock st0.samples, { st0 with samples := st0.samples + 1 }) ∧
    timerEnter clock st0 =
      (clock st0.samples,
        { nesting := 1, time := clock st0.samples, samples := st0.samples + 1 }) ∧
    (∀ x ∈ (runTimer clock tr (timerEnter clock st0).2).1, x = clock st0.samples) ∧
    (runTimer clock tr (timerEnter clock st0).2).2.samples = st0.samples + 1 ∧
    (∀ st : TimerState, 0 < st.nesting → timerCall clock st = (st.time, st)) := by
  have hst : (timerEnter clock st0).2 =
      ⟨1, clock st0.samples, st0.samples + 1⟩ := by
    simp [timerEnter, h0]
  refine ⟨?_, ?_, ?_, ?_, ?_⟩
  · simp [timerCall, h0]
  · simp [timerEnter, h0]
  · rw [hst]
    exact (runTimer_const clock tr ⟨1, clock st0.samples, st0.samples + 1⟩
      (le_refl 1) hok).1
  · rw [hst]
    exact (runTimer_const clock tr ⟨1, clock st0.samples, st0.samples + 1⟩
      (le_refl 1) hok).2.1
  · intro st hpos
    unfold timerCall
    rw [if_neg (by omega)]

/-- C8, witness: nested enter and calls inside one outer scope. -/
theorem C8_timer_witness :
    timerCall (fun n => (n : Time)) ⟨0, 3, 0⟩ = ((0 : Time), ⟨0, 3, 1⟩) ∧
    timerEnter (fun n => (n : Time)) ⟨0, 3, 0⟩ = ((0 : Time), ⟨1, 0, 1⟩) ∧
    (∀ x ∈ (runTimer (fun n => (n : Time))
        [.enter, .call, .exit, .call]
        (timerEnter (fun n => (n : Time)) ⟨0, 3, 0⟩).2).1, x = (0 : Time)) ∧
    (runTimer (fun n => (n : Time)) [.enter, .call, .exit, .call]
        (timerEnter (fun n => (n : Time)) ⟨0, 3, 0⟩).2).2.samples = 1 ∧
    (∀ st : TimerState, 0 < st.nesting →
      timerCall (fun n => (n : Time)) st = (st.time, st)) :=
  C8_timer (fun n => (n : Time)) ⟨0, 3, 0⟩ rfl [.enter, .call, .exit, .call] rfl

/-- C9: popitem behaviour — it purges with the snapshot time first; on an
empty (or fully expired) cache it raises the empty-cache error; otherwise it
removes and returns the LRU live pair. In particular, with a set at time 0 and
b set at time 1, both live and untouched, it returns (a, value a) and leaves
exactly {b}; with the LRU front already expired, the purge removes it and the
live entry is popped instead (a = 0, b = 1). -/
theorem C9_popitem :
    setitem (mkCache 2 10) 0 41 0 = some ⟨[(0, 41)], [(0, 10)], [0], 2, 10⟩ ∧
    setitem ⟨[(0, 41)], [(0, 10)], [0], 2, 10⟩ 1 42 1 =
      some ⟨[(0, 41), (1, 42)], [(0, 10), (1, 11)], [0, 1], 2, 10⟩ ∧
    popitem ⟨[(0, 41), (1, 42)], [(0, 10), (1, 11)], [0, 1], 2, 10⟩ 2 =
      .ok (0, 41) ⟨[(1, 42)], [(1, 11)], [1], 2, 10⟩ ∧
    popitem (mkCache 2 10) 0 = .empty ∧
    popitem ⟨[(0, 1), (1, 2)], [(0, 5), (1, 20)], [0, 1], 2, 10⟩ 10 =
      .ok (1, 2) ⟨[], [], [], 2, 10⟩ ∧
    popitem ⟨[(0, 1)], [(0, 5)], [0], 2, 10⟩ 10 = .empty := by
  decide

/-- C10: a `get` of an expired-but-not-yet-purged key returns the
missing/not-found result without purging, but moves that key to the MRU end of
the Access Order Index (via `__getexpiry`'s `move_to_end`), leaving the
Bounded Store and the Expiry Index unchanged. -/
theorem C10_expired_get {s : CacheState} {k : Key} {e now : Time}
    (hf : odFind s.expiry_info k = some e) (he : e < now) (hko : k ∈ s.order) :
    getitem s k now = (none, { s with order := s.order.erase k ++ [k] }) ∧
    (getitem s k now).2.data = s.data ∧
    (getitem s k now).2.expiry_info = s.expiry_info := by
  have hmain : getitem s k now = (none, { s with order := s.order.erase k ++ [k] }) := by
    unfold getitem
    have hge : getexpiry s k =
        some (e, { s with order := s.order.erase k ++ [k] }) := by
      unfold getexpiry
      rw [hf]
      simp [hko]
    rw [hge]
    simp [he]
  exact ⟨hmain, by rw [hmain], by rw [hmain]⟩

/-- C10, witness: key 0 expired at 5, read at time 10. -/
theorem C10_expired_get_witness :
    getitem (⟨[(0, 1), (1, 2)], [(0, 5), (1, 20)], [0, 1], 2, 10⟩ : CacheState)
        0 10 =
      (none, ⟨[(0, 1), (1, 2)], [(0, 5), (1, 20)], [1, 0], 2, 10⟩) ∧
    (getitem (⟨[(0, 1), (1, 2)], [(0, 5), (1, 20)], [0, 1], 2, 10⟩ : CacheState)
        0 10).2.data =
      (⟨[(0, 1), (1, 2)], [(0, 5), (1, 20)], [0, 1], 2, 10⟩ : CacheState).data ∧
    (getitem (⟨[(0, 1), (1, 2)], [(0, 5), (1, 20)], [0, 1], 2, 10⟩ : CacheState)
        0 10).2.expiry_info =
      (⟨[(0, 1), (1, 2)], [(0, 5), (1, 20)], [0, 1], 2, 10⟩ : CacheState).expiry_info :=
  @C10_expired_get ⟨[(0, 1), (1, 2)], [(0, 5), (1, 20)], [0, 1], 2, 10⟩ 0 5 10
    (by decide) (by decide) (by decide)

end TTL
